import Mathlib

/-!
Verification of a minimal embedding-based semantic retrieval engine
(chunking + document store + exact top-k cosine search + ingest pipeline),
as specified for the `rag-langchain-presidential-speeches` notebook.

The notebook delegates chunking (`TokenTextSplitter`), embedding
(`SentenceTransformerEmbeddings`), similarity (`cosine_similarity` and
`np.argmax`) and storage (Pinecone) to external libraries, so the engine
components below are modelled from the specification; the corpus ingest
loop over the speeches dataframe is translated from the notebook itself.
-/

/-- Error taxonomy of the engine: malformed input parameters,
collaborator (embedder) failure, and the dimension-consistency error. -/
inductive VError where
  | inputError : VError
  | collaboratorError : VError
  deriving Repr, DecidableEq

/-! ## Chunker

Modelled from the spec: `split(text, max_tokens, overlap_tokens)` tokenizes
with a caller-supplied rule and produces consecutive windows of at most
`max_tokens` tokens, each window starting `max_tokens - overlap_tokens`
tokens after the previous one; the final window ends at the last token.
We work directly on the token sequence (the tokenization rule is a
pluggable policy, so tokens are an arbitrary type `α`). -/

/-- One chunking pass: emit the first `maxT` tokens as a window and recurse
on the sequence with the first `step` tokens removed, stopping when the
remainder fits in one window.  `fuel` is a structural-recursion bound; any
`fuel ≥ toks.length` gives the intended behaviour when `step > 0`. -/
def splitGo (maxT step : ℕ) : ℕ → List α → List (List α)
  | 0, toks => [toks]
  | fuel + 1, toks =>
    if toks.length ≤ maxT then [toks]
    else toks.take maxT :: splitGo maxT step fuel (toks.drop step)

/-- Number of windows `splitGo` produces on an input of `N` tokens. -/
def numWinGo (maxT step : ℕ) : ℕ → ℕ → ℕ
  | 0, _ => 1
  | fuel + 1, N =>
    if N ≤ maxT then 1 else numWinGo maxT step fuel (N - step) + 1

/-- Number of windows produced for a non-empty input of `N` tokens. -/
def numWin (maxT step N : ℕ) : ℕ :=
  numWinGo maxT step N N

/-- Modelled from the spec: `Chunker.split`.  Rejects
`max_tokens ≤ overlap_tokens` and `max_tokens ≤ 0` as input errors, maps
the empty input to zero windows, and otherwise produces the sliding
windows of at most `max_tokens` tokens with stride
`max_tokens − overlap_tokens`. -/
def Chunker.split (maxT ov : ℤ) (toks : List α) : Except VError (List (List α)) :=
  if maxT ≤ ov ∨ maxT ≤ 0 then .error .inputError
  else if toks.isEmpty then .ok []
  else .ok (splitGo maxT.toNat (maxT - ov).toNat toks.length toks)

/-! ### Chunker lemmas -/

theorem splitGo_eq_map_range (maxT step : ℕ) (hstep : 0 < step) :
    ∀ (fuel : ℕ) (toks : List α), toks.length ≤ maxT + fuel * step →
      splitGo maxT step fuel toks =
        (List.range (numWinGo maxT step fuel toks.length)).map
          (fun j => (toks.drop (j * step)).take maxT)
  | 0, toks => by
    intro h
    simp only [Nat.zero_mul, Nat.add_zero] at h
    rw [splitGo, numWinGo]
    simp [List.range_succ, List.take_of_length_le h]
  | fuel + 1, toks => by
    intro h
    by_cases hle : toks.length ≤ maxT
    · rw [splitGo, if_pos hle, numWinGo, if_pos hle]
      simp [List.range_succ, List.take_of_length_le hle]
    · have hmul : (fuel + 1) * step = fuel * step + step := by ring
      have hlen : (toks.drop step).length ≤ maxT + fuel * step := by
        simp only [List.length_drop]
        omega
      have ih := splitGo_eq_map_range maxT step hstep fuel (toks.drop step) hlen
      simp only [splitGo, numWinGo, hle, if_false, ih, List.length_drop]
      rw [List.range_succ_eq_map, List.map_cons, List.map_map]
      congr 1
      · simp
      · apply List.map_congr_left
        intro j _
        simp only [Function.comp_apply, List.drop_drop]
        congr 2
        rw [Nat.succ_mul]
        exact Nat.add_comm _ _

theorem numWinGo_pos (maxT step fuel N : ℕ) : 0 < numWinGo maxT step fuel N := by
  cases fuel with
  | zero => simp [numWinGo]
  | succ fuel =>
    by_cases h : N ≤ maxT <;> simp [numWinGo, h]

theorem numWinGo_of_le (maxT step fuel N : ℕ) (h : N ≤ maxT) :
    numWinGo maxT step fuel N = 1 := by
  cases fuel with
  | zero => simp [numWinGo]
  | succ fuel => simp [numWinGo, h]

/-- The last window reaches the end of the input: `N` tokens are exhausted
by `numWinGo` windows of width `maxT` placed at stride `step`. -/
theorem numWinGo_last (maxT step : ℕ) (hstep : 0 < step) (hMstep : step ≤ maxT) :
    ∀ (fuel N : ℕ), N ≤ maxT + fuel * step →
      N + step ≤ numWinGo maxT step fuel N * step + maxT
  | 0, N => by
    intro h
    simp only [numWinGo, Nat.one_mul]
    omega
  | fuel + 1, N => by
    intro h
    by_cases hle : N ≤ maxT
    · simp only [numWinGo, hle, if_true, Nat.one_mul]
      omega
    · have hmul : (fuel + 1) * step = fuel * step + step := by ring
      have ih := numWinGo_last maxT step hstep hMstep fuel (N - step) (by omega)
      simp only [numWinGo, hle, if_false, Nat.add_mul, Nat.one_mul]
      omega

/-- Window count in closed form: with stride `step` and window width
`step + v` (so `v` is the overlap), a non-degenerate input of `N > v`
tokens yields `⌈(N − v) / step⌉ = (N − v + step − 1) / step` windows. -/
theorem numWinGo_count (step v : ℕ) (hstep : 0 < step) :
    ∀ (fuel N : ℕ), N ≤ (step + v) + fuel * step → v < N →
      numWinGo (step + v) step fuel N = (N - v + step - 1) / step
  | 0, N => by
    intro h hv
    simp only [numWinGo]
    have h1 : 1 * step ≤ N - v + step - 1 := by omega
    have h2 : N - v + step - 1 < (1 + 1) * step := by omega
    rw [Nat.div_eq_of_lt_le h1 h2]
  | fuel + 1, N => by
    intro h hv
    by_cases hle : N ≤ step + v
    · simp only [numWinGo, hle, if_true]
      have h1 : 1 * step ≤ N - v + step - 1 := by omega
      have h2 : N - v + step - 1 < (1 + 1) * step := by omega
      rw [Nat.div_eq_of_lt_le h1 h2]
    · have hmul : (fuel + 1) * step = fuel * step + step := by ring
      have ih := numWinGo_count step v hstep fuel (N - step) (by omega) (by omega)
      simp only [numWinGo, hle, if_false, ih]
      have hrw : N - v + step - 1 = (N - step - v + step - 1) + step := by omega
      rw [hrw, Nat.add_div_right _ hstep]

/-- Every non-final window is full and is followed by more input:
if window `j` is not the last one, the input extends past `j * step + maxT`. -/
theorem numWinGo_gt (maxT step : ℕ) (hstep : 0 < step) :
    ∀ (fuel N j : ℕ), j + 1 < numWinGo maxT step fuel N → j * step + maxT < N
  | 0, N, j => by
    intro h
    simp only [numWinGo] at h
    omega
  | fuel + 1, N, j => by
    intro h
    by_cases hle : N ≤ maxT
    · rw [numWinGo_of_le _ _ _ _ hle] at h
      omega
    · simp only [numWinGo, hle, if_false] at h
      cases j with
      | zero => omega
      | succ j =>
        have ih := numWinGo_gt maxT step hstep fuel (N - step) j (by omega)
        have hmul : (j + 1) * step = j * step + step := by ring
        omega

/-- Casting bridge: the ceiling of `a / b` over `ℚ` is the rounding-up
natural division `(a + b - 1) / b`, for `a, b > 0`. -/
theorem ceil_div_nat_eq (a b : ℕ) (hb : 0 < b) (ha : 0 < a) :
    ⌈(a : ℚ) / (b : ℚ)⌉ = (((a + b - 1) / b : ℕ) : ℤ) := by
  have hbq : (0 : ℚ) < (b : ℚ) := by exact_mod_cast hb
  have hdm := Nat.div_add_mod (a + b - 1) b
  have hmod : (a + b - 1) % b < b := Nat.mod_lt _ hb
  have hcomm : b * ((a + b - 1) / b) = ((a + b - 1) / b) * b := Nat.mul_comm _ _
  have h3 : a ≤ ((a + b - 1) / b) * b := by omega
  have h5 : ((a + b - 1) / b) * b < a + b := by omega
  have hc3 : (a : ℚ) ≤ (((a + b - 1) / b : ℕ) : ℚ) * b := by exact_mod_cast h3
  have hc5 : (((a + b - 1) / b : ℕ) : ℚ) * b < a + b := by exact_mod_cast h5
  rw [Int.ceil_eq_iff]
  refine ⟨?_, ?_⟩
  · rw [Int.cast_natCast, lt_div_iff₀ hbq]
    nlinarith [hc5]
  · rw [Int.cast_natCast, div_le_iff₀ hbq]
    exact hc3

/-- Normal form of `Chunker.split` on valid parameters: the windows are
`toks[j*step : j*step + maxT]` for `j = 0, …, numWin − 1`. -/
theorem split_eq_of_valid {α : Type} (maxT ov : ℤ) (hov : ov < maxT)
    (hpos : 0 < maxT) (toks : List α) :
    Chunker.split maxT ov toks =
      .ok (if toks.isEmpty then ([] : List (List α))
           else (List.range (numWin maxT.toNat (maxT - ov).toNat toks.length)).map
             (fun j => (toks.drop (j * (maxT - ov).toNat)).take maxT.toNat)) := by
  unfold Chunker.split
  rw [if_neg (by omega)]
  by_cases he : toks.isEmpty
  · rw [if_pos he, if_pos he]
  · rw [if_neg he, if_neg he]
    congr 1
    have hstep : 0 < (maxT - ov).toNat := by omega
    have hbound : toks.length ≤ maxT.toNat + toks.length * (maxT - ov).toNat := by
      have := Nat.le_mul_of_pos_right toks.length hstep
      omega
    exact splitGo_eq_map_range _ _ hstep toks.length toks hbound

/-- Coverage: every token position of the input lies inside some window of
the canonical window list, at the expected in-window position. -/
theorem window_cover {α : Type} (M step : ℕ) (hstep : 0 < step) (hsM : step ≤ M)
    (toks : List α) (i : ℕ) (hi : i < toks.length) :
    ∃ j w,
      ((List.range (numWin M step toks.length)).map
          (fun j => (toks.drop (j * step)).take M))[j]? = some w ∧
      j * step ≤ i ∧ i < j * step + w.length ∧
      w[i - j * step]? = toks[i]? := by
  have hm1 : 0 < numWin M step toks.length := numWinGo_pos _ _ _ _
  have hlast : toks.length + step ≤ numWin M step toks.length * step + M := by
    apply numWinGo_last M step hstep hsM toks.length toks.length
    have := Nat.le_mul_of_pos_right toks.length hstep
    omega
  obtain ⟨m, hm⟩ : ∃ m, numWin M step toks.length = m + 1 :=
    ⟨numWin M step toks.length - 1, by omega⟩
  rw [hm] at hlast
  have hmul : (m + 1) * step = m * step + step := by ring
  have hdm := Nat.div_add_mod i step
  have hmod : i % step < step := Nat.mod_lt _ hstep
  have hcomm : step * (i / step) = (i / step) * step := Nat.mul_comm _ _
  rcases le_total (i / step) m with hj | hj
  · refine ⟨i / step, (toks.drop ((i / step) * step)).take M, ?_, ?_, ?_, ?_⟩
    · rw [List.getElem?_map, List.getElem?_range (by omega)]
      rfl
    · omega
    · rw [List.length_take, List.length_drop]
      omega
    · rw [List.getElem?_take_of_lt (by omega), List.getElem?_drop]
      congr 1
      omega
  · have hms : m * step ≤ (i / step) * step := Nat.mul_le_mul_right step hj
    have hdms : (i / step) * step ≤ i := Nat.div_mul_le_self _ _
    refine ⟨m, (toks.drop (m * step)).take M, ?_, ?_, ?_, ?_⟩
    · rw [List.getElem?_map, List.getElem?_range (by omega)]
      rfl
    · omega
    · rw [List.length_take, List.length_drop]
      omega
    · rw [List.getElem?_take_of_lt (by omega), List.getElem?_drop]
      congr 1
      omega

/-! ### Chunker claims -/

/-- Claim C3 counterexample: on a 1-token input with `max_tokens = 2` and
`overlap_tokens = 1`, `split` yields one window while the closed-form
`⌈(N − overlap) / (max_tokens − overlap)⌉` evaluates to `0`, so the claimed
count formula fails for `0 < N ≤ overlap_tokens`. -/
theorem chunker_count_cex :
    Chunker.split 2 1 ([0] : List ℕ) = .ok [[0]] ∧
      ((([[0]] : List (List ℕ)).length : ℤ) ≠
        ⌈((([0] : List ℕ).length : ℚ) - ((1 : ℤ) : ℚ)) / (((2 : ℤ) : ℚ) - ((1 : ℤ) : ℚ))⌉) := by
  refine ⟨rfl, ?_⟩
  norm_num

/-- Claim C3 (amended): for valid parameters `max_tokens > overlap_tokens ≥ 0`,
the windows of `Chunker.split` cover every token of the input with no gaps;
the number of windows equals `⌈(N − overlap_tokens) / (max_tokens − overlap_tokens)⌉`
whenever `N > overlap_tokens`, and is `1` when `0 < N ≤ overlap_tokens`;
empty input yields zero windows. -/
theorem chunker_cover_count {α : Type} (maxT ov : ℤ) (toks : List α)
    (hov : 0 ≤ ov) (hlt : ov < maxT) (ws : List (List α))
    (hws : Chunker.split maxT ov toks = .ok ws) :
    (toks.isEmpty → ws = [])
    ∧ (∀ i, i < toks.length → ∃ j w, ws[j]? = some w ∧
        j * (maxT - ov).toNat ≤ i ∧ i < j * (maxT - ov).toNat + w.length ∧
        w[i - j * (maxT - ov).toNat]? = toks[i]?)
    ∧ ((ov : ℤ) < (toks.length : ℤ) →
        (ws.length : ℤ) = ⌈((toks.length : ℚ) - ((ov : ℤ) : ℚ)) / (((maxT : ℤ) : ℚ) - ((ov : ℤ) : ℚ))⌉)
    ∧ (0 < toks.length → (toks.length : ℤ) ≤ ov → ws.length = 1) := by
  rw [split_eq_of_valid maxT ov hlt (by omega) toks] at hws
  simp only [Except.ok.injEq] at hws
  subst hws
  have hstep : 0 < (maxT - ov).toNat := by omega
  have hsM : (maxT - ov).toNat ≤ maxT.toNat := by omega
  have hMsv : maxT.toNat = (maxT - ov).toNat + ov.toNat := by omega
  cases toks with
  | nil =>
    refine ⟨fun _ => by simp, ?_, ?_, ?_⟩
    · intro i hi
      simp at hi
    · intro hcontra
      simp only [List.length_nil, Nat.cast_zero] at hcontra
      omega
    · intro h
      simp at h
  | cons a as =>
    have hne : (a :: as).isEmpty = false := rfl
    rw [hne] at *
    simp only [Bool.false_eq_true, if_false]
    refine ⟨fun h => by simp at h, ?_, ?_, ?_⟩
    · intro i hi
      exact window_cover maxT.toNat (maxT - ov).toNat hstep hsM (a :: as) i hi
    · intro hovN
      have hvN : ov.toNat < (a :: as).length := by omega
      have hbound : (a :: as).length ≤
          ((maxT - ov).toNat + ov.toNat) + (a :: as).length * (maxT - ov).toNat := by
        have := Nat.le_mul_of_pos_right (a :: as).length hstep
        omega
      have hcount : numWin maxT.toNat (maxT - ov).toNat (a :: as).length =
          ((a :: as).length - ov.toNat + (maxT - ov).toNat - 1) / (maxT - ov).toNat := by
        unfold numWin
        rw [hMsv]
        exact numWinGo_count (maxT - ov).toNat ov.toNat hstep (a :: as).length
          (a :: as).length hbound hvN
      have hc1 : ((maxT : ℤ) : ℚ) - ((ov : ℤ) : ℚ) = (((maxT - ov).toNat : ℕ) : ℚ) := by
        have h' : (((maxT - ov).toNat : ℕ) : ℤ) = maxT - ov := by omega
        calc ((maxT : ℤ) : ℚ) - ((ov : ℤ) : ℚ) = ((maxT - ov : ℤ) : ℚ) := by push_cast; ring
          _ = ((((maxT - ov).toNat : ℕ) : ℤ) : ℚ) := by rw [h']
          _ = (((maxT - ov).toNat : ℕ) : ℚ) := by push_cast; ring
      have hc2 : (((a :: as).length : ℕ) : ℚ) - ((ov : ℤ) : ℚ) =
          ((((a :: as).length - ov.toNat : ℕ) : ℕ) : ℚ) := by
        have h' : ((((a :: as).length - ov.toNat : ℕ) : ℕ) : ℤ) =
            ((a :: as).length : ℤ) - ov := by omega
        have h'' : ((((a :: as).length - ov.toNat : ℕ) : ℤ) : ℚ) =
            (((a :: as).length : ℤ) : ℚ) - ((ov : ℤ) : ℚ) := by
          rw [h']
          push_cast
          ring
        push_cast at h'' ⊢
        linarith
      rw [hc1, hc2, ceil_div_nat_eq _ _ hstep (by omega)]
      simp only [List.length_map, List.length_range]
      rw [hcount]
    · intro _ hle
      have hNv : (a :: as).length ≤ maxT.toNat := by omega
      simp only [List.length_map, List.length_range]
      unfold numWin
      exact numWinGo_of_le _ _ _ _ hNv

/-- Claim C4: window `i+1` starts exactly `max_tokens − overlap_tokens`
tokens after window `i`, so consecutive windows share exactly
`overlap_tokens` tokens; splitting a 1000-token document with
`max_tokens = 450`, `overlap_tokens = 20` yields 3 windows at token
offsets 0, 430 and 860, the last covering tokens 860–999 (140 tokens). -/
theorem chunker_stride_scenario :
    (∀ {α : Type} (maxT ov : ℤ) (toks : List α) (ws : List (List α)),
      0 ≤ ov → ov < maxT → Chunker.split maxT ov toks = .ok ws →
      (∀ j, j < ws.length →
        ws[j]? = some ((toks.drop (j * (maxT - ov).toNat)).take maxT.toNat))
      ∧ (∀ j, j + 1 < ws.length → ∃ w w', ws[j]? = some w ∧ ws[j + 1]? = some w' ∧
          w.drop (maxT - ov).toNat = w'.take ov.toNat ∧
          (w'.take ov.toNat).length = ov.toNat))
    ∧ (∀ toks : List ℕ, toks.length = 1000 →
        ∃ ws, Chunker.split 450 20 toks = .ok ws ∧ ws.length = 3 ∧
          ws[0]? = some (toks.take 450) ∧
          ws[1]? = some ((toks.drop 430).take 450) ∧
          ws[2]? = some (toks.drop 860) ∧ (toks.drop 860).length = 140) := by
  constructor
  · intro α maxT ov toks ws hov hlt hws
    rw [split_eq_of_valid maxT ov hlt (by omega) toks] at hws
    simp only [Except.ok.injEq] at hws
    subst hws
    have hstep : 0 < (maxT - ov).toNat := by omega
    have hMsv : maxT.toNat = (maxT - ov).toNat + ov.toNat := by omega
    by_cases he : toks.isEmpty
    · rw [if_pos he]
      exact ⟨fun j hj => by simp at hj, fun j hj => by simp at hj⟩
    · rw [if_neg he]
      constructor
      · intro j hj
        simp only [List.length_map, List.length_range] at hj
        rw [List.getElem?_map, List.getElem?_range hj]
        rfl
      · intro j hj
        simp only [List.length_map, List.length_range] at hj
        have hmul : (j + 1) * (maxT - ov).toNat = j * (maxT - ov).toNat + (maxT - ov).toNat := by
          ring
        have hgt := numWinGo_gt maxT.toNat (maxT - ov).toNat hstep toks.length
          toks.length j hj
        refine ⟨(toks.drop (j * (maxT - ov).toNat)).take maxT.toNat,
                (toks.drop ((j + 1) * (maxT - ov).toNat)).take maxT.toNat,
                ?_, ?_, ?_, ?_⟩
        · rw [List.getElem?_map, List.getElem?_range (by omega)]
          rfl
        · rw [List.getElem?_map, List.getElem?_range hj]
          rfl
        · rw [List.drop_take, List.take_take, List.drop_drop]
          congr 1
          · omega
          · congr 1
            omega
        · rw [List.length_take, List.length_take, List.length_drop]
          omega
  · intro toks hlen
    have hval := split_eq_of_valid 450 20 (by norm_num) (by norm_num) toks
    have hE : toks.isEmpty = false := by
      cases toks with
      | nil => simp at hlen
      | cons a as => rfl
    rw [hE] at hval
    simp only [Bool.false_eq_true, if_false] at hval
    have h450 : (450 : ℤ).toNat = 450 := rfl
    have h430 : ((450 : ℤ) - 20).toNat = 430 := rfl
    rw [h450, h430, hlen] at hval
    have hnum : numWin 450 430 1000 = 3 := by decide
    rw [hnum] at hval
    have hd860 : (toks.drop 860).length = 140 := by
      rw [List.length_drop, hlen]
    refine ⟨_, hval, by simp, ?_, ?_, ?_, hd860⟩
    · rw [List.getElem?_map, List.getElem?_range (by norm_num)]
      simp
    · rw [List.getElem?_map, List.getElem?_range (by norm_num)]
      norm_num
    · rw [List.getElem?_map, List.getElem?_range (by norm_num)]
      have hle450 : (toks.drop 860).length ≤ 450 := by
        rw [hd860]
        norm_num
      have h2 : (toks.drop (2 * 430)).take 450 = toks.drop 860 := by
        rw [show (2 * 430 : ℕ) = 860 by norm_num]
        exact List.take_of_length_le hle450
      exact congrArg some h2

/-- Claim C7: every window produced by `Chunker.split` contains at most
`max_tokens` tokens. -/
theorem chunker_window_bound {α : Type} (maxT ov : ℤ) (toks : List α)
    (ws : List (List α)) (hws : Chunker.split maxT ov toks = .ok ws) :
    ∀ w ∈ ws, (w.length : ℤ) ≤ maxT := by
  by_cases hbad : maxT ≤ ov ∨ maxT ≤ 0
  · unfold Chunker.split at hws
    rw [if_pos hbad] at hws
    exact absurd hws (by simp)
  · have hov : ov < maxT := by omega
    have hpos : 0 < maxT := by omega
    rw [split_eq_of_valid maxT ov hov hpos toks] at hws
    simp only [Except.ok.injEq] at hws
    subst hws
    intro w hw
    by_cases he : toks.isEmpty
    · rw [if_pos he] at hw
      simp at hw
    · rw [if_neg he] at hw
      rw [List.mem_map] at hw
      obtain ⟨j, _, rfl⟩ := hw
      have hlen : ((toks.drop (j * (maxT - ov).toNat)).take maxT.toNat).length ≤ maxT.toNat := by
        rw [List.length_take]
        omega
      omega

/-- Witness for C7 at a concrete input: splitting three tokens with
`max_tokens = 2`, `overlap_tokens = 0`. -/
theorem chunker_window_bound_witness :
    Chunker.split 2 0 ([0, 1, 2] : List ℕ) = .ok [[0, 1], [2]] ∧
    (∀ w ∈ ([[0, 1], [2]] : List (List ℕ)), (w.length : ℤ) ≤ 2) :=
  ⟨rfl, chunker_window_bound 2 0 [0, 1, 2] [[0, 1], [2]] rfl⟩

/-- Claim C8: `split` raises an input error exactly when
`max_tokens ≤ overlap_tokens` or `max_tokens ≤ 0`, and raises no error for
valid parameters `max_tokens > overlap_tokens ≥ 0`. -/
theorem chunker_param_check {α : Type} (maxT ov : ℤ) (toks : List α) :
    (maxT ≤ ov ∨ maxT ≤ 0 → Chunker.split maxT ov toks = .error .inputError)
    ∧ (0 ≤ ov → ov < maxT → ∀ e, Chunker.split maxT ov toks ≠ .error e) := by
  constructor
  · intro h
    unfold Chunker.split
    rw [if_pos h]
  · intro _ hlt e
    rw [split_eq_of_valid maxT ov hlt (by omega) toks]
    simp

/-- Witness for C8: `max_tokens = 0` is rejected; valid parameters
`max_tokens = 2 > overlap_tokens = 1 ≥ 0` raise no error. -/
theorem chunker_param_check_witness :
    Chunker.split 0 0 ([0] : List ℕ) = .error .inputError ∧
    (∀ e, Chunker.split 2 1 ([0] : List ℕ) ≠ .error e) :=
  ⟨(chunker_param_check 0 0 [0]).1 (by norm_num),
   (chunker_param_check 2 1 [0]).2 (by norm_num) (by norm_num)⟩

/-- Witness for C4: the stride/overlap facts at `max_tokens = 3`,
`overlap_tokens = 1` on five tokens, and the 1000-token scenario at
`toks = List.range 1000`. -/
theorem chunker_stride_scenario_witness :
    ((0 : ℤ) ≤ 1 ∧ (1 : ℤ) < 3 ∧
      Chunker.split 3 1 ([0, 1, 2, 3, 4] : List ℕ) = .ok [[0, 1, 2], [2, 3, 4]] ∧
      ((∀ j, j < ([[0, 1, 2], [2, 3, 4]] : List (List ℕ)).length →
          ([[0, 1, 2], [2, 3, 4]] : List (List ℕ))[j]? =
            some ((([0, 1, 2, 3, 4] : List ℕ).drop (j * ((3 : ℤ) - 1).toNat)).take (3 : ℤ).toNat))
        ∧ (∀ j, j + 1 < ([[0, 1, 2], [2, 3, 4]] : List (List ℕ)).length →
            ∃ w w', ([[0, 1, 2], [2, 3, 4]] : List (List ℕ))[j]? = some w ∧
              ([[0, 1, 2], [2, 3, 4]] : List (List ℕ))[j + 1]? = some w' ∧
              w.drop ((3 : ℤ) - 1).toNat = w'.take (1 : ℤ).toNat ∧
              (w'.take (1 : ℤ).toNat).length = (1 : ℤ).toNat)))
    ∧ ((List.range 1000).length = 1000 ∧
        ∃ ws, Chunker.split 450 20 (List.range 1000) = .ok ws ∧ ws.length = 3 ∧
          ws[0]? = some ((List.range 1000).take 450) ∧
          ws[1]? = some (((List.range 1000).drop 430).take 450) ∧
          ws[2]? = some ((List.range 1000).drop 860) ∧
          ((List.range 1000).drop 860).length = 140) := by
  refine ⟨⟨by norm_num, by norm_num, rfl, ?_⟩, ⟨by simp, ?_⟩⟩
  · exact chunker_stride_scenario.1 3 1 [0, 1, 2, 3, 4] [[0, 1, 2], [2, 3, 4]]
      (by norm_num) (by norm_num) rfl
  · exact chunker_stride_scenario.2 (List.range 1000) (by simp)

/-- Witness for C3 (amended) at `max_tokens = 2`, `overlap_tokens = 1`,
three tokens. -/
theorem chunker_cover_count_witness :
    (0 : ℤ) ≤ 1 ∧ (1 : ℤ) < 2 ∧
    Chunker.split 2 1 ([0, 1, 2] : List ℕ) = .ok [[0, 1], [1, 2]] ∧
    ((([0, 1, 2] : List ℕ).isEmpty → ([[0, 1], [1, 2]] : List (List ℕ)) = [])
      ∧ (∀ i, i < ([0, 1, 2] : List ℕ).length → ∃ j w,
          ([[0, 1], [1, 2]] : List (List ℕ))[j]? = some w ∧
          j * ((2 : ℤ) - 1).toNat ≤ i ∧ i < j * ((2 : ℤ) - 1).toNat + w.length ∧
          w[i - j * ((2 : ℤ) - 1).toNat]? = ([0, 1, 2] : List ℕ)[i]?)
      ∧ ((1 : ℤ) < (([0, 1, 2] : List ℕ).length : ℤ) →
          ((([[0, 1], [1, 2]] : List (List ℕ)).length : ℤ) =
            ⌈((([0, 1, 2] : List ℕ).length : ℚ) - (((1 : ℤ)) : ℚ)) /
              ((((2 : ℤ)) : ℚ) - (((1 : ℤ)) : ℚ))⌉))
      ∧ (0 < ([0, 1, 2] : List ℕ).length → (([0, 1, 2] : List ℕ).length : ℤ) ≤ 1 →
          ([[0, 1], [1, 2]] : List (List ℕ)).length = 1)) :=
  ⟨by norm_num, by norm_num, rfl,
   chunker_cover_count 2 1 [0, 1, 2] (by norm_num) (by norm_num) [[0, 1], [1, 2]] rfl⟩

/-! ## Cosine similarity

Modelled from the spec (§4.3) and the notebook's use of `cosine_similarity`:
`dot(a,b) / (‖a‖·‖b‖)`, defined as `0` when either vector has zero norm. -/

/-- Dot product of two vectors (componentwise product, summed). -/
noncomputable def dot (a b : List ℝ) : ℝ :=
  (List.zipWith (· * ·) a b).sum

/-- Euclidean norm of a vector. -/
noncomputable def norm2 (a : List ℝ) : ℝ :=
  Real.sqrt (dot a a)

/-- Modelled from the spec: cosine similarity, with the deliberate
zero-norm policy (`0`, not an error). -/
noncomputable def cosineSim (a b : List ℝ) : ℝ :=
  if norm2 a = 0 ∨ norm2 b = 0 then 0 else dot a b / (norm2 a * norm2 b)

theorem dot_nil_left (b : List ℝ) : dot [] b = 0 := rfl

theorem dot_nil_right (a : List ℝ) : dot a [] = 0 := by
  simp [dot]

theorem dot_cons (x y : ℝ) (xs ys : List ℝ) :
    dot (x :: xs) (y :: ys) = x * y + dot xs ys := by
  simp [dot]

theorem dot_self_nonneg (a : List ℝ) : 0 ≤ dot a a := by
  induction a with
  | nil => simp [dot]
  | cons x xs ih =>
    rw [dot_cons]
    nlinarith [sq_nonneg x]

/-- Cauchy–Schwarz for the list dot product. -/
theorem dot_sq_le (a : List ℝ) : ∀ b : List ℝ, (dot a b) ^ 2 ≤ dot a a * dot b b := by
  induction a with
  | nil =>
    intro b
    simp [dot_nil_left]
  | cons x xs ih =>
    intro b
    cases b with
    | nil => simp [dot_nil_right]
    | cons y ys =>
      have hS := ih ys
      have hA := dot_self_nonneg xs
      have hB := dot_self_nonneg ys
      rw [dot_cons, dot_cons, dot_cons]
      rcases eq_or_lt_of_le hA with hA0 | hApos
      · have hS0 : dot xs ys = 0 := by nlinarith [hS]
        rw [hS0, ← hA0]
        nlinarith [sq_nonneg x, sq_nonneg y, mul_nonneg (sq_nonneg x) hB]
      · have key : 0 ≤ (dot xs xs * dot ys ys - (dot xs ys) ^ 2) * (x ^ 2 + dot xs xs) :=
          mul_nonneg (by nlinarith [hS]) (by positivity)
        nlinarith [key, sq_nonneg (dot xs ys * x - dot xs xs * y), hApos]

theorem norm2_nonneg (a : List ℝ) : 0 ≤ norm2 a :=
  Real.sqrt_nonneg _

theorem norm2_mul_self (a : List ℝ) : norm2 a * norm2 a = dot a a :=
  Real.mul_self_sqrt (dot_self_nonneg a)

/-- Claim C6: cosine similarity equals `dot(a,b)/(‖a‖·‖b‖)` on vectors of
equal dimension with nonzero norms, is exactly `0` whenever either vector
has zero norm, satisfies `cosine(a,a) = 1` for `‖a‖ > 0`, and always lies
in `[-1, 1]`. -/
theorem cosineSim_spec :
    (∀ a b : List ℝ, a.length = b.length → norm2 a ≠ 0 → norm2 b ≠ 0 →
      cosineSim a b = dot a b / (norm2 a * norm2 b))
    ∧ (∀ a b : List ℝ, norm2 a = 0 ∨ norm2 b = 0 → cosineSim a b = 0)
    ∧ (∀ a : List ℝ, 0 < norm2 a → cosineSim a a = 1)
    ∧ (∀ a b : List ℝ, -1 ≤ cosineSim a b ∧ cosineSim a b ≤ 1) := by
  have hzero : ∀ a b : List ℝ, norm2 a = 0 ∨ norm2 b = 0 → cosineSim a b = 0 := by
    intro a b h
    unfold cosineSim
    rw [if_pos h]
  have habs : ∀ a b : List ℝ, -1 ≤ cosineSim a b ∧ cosineSim a b ≤ 1 := by
    intro a b
    by_cases h : norm2 a = 0 ∨ norm2 b = 0
    · rw [hzero a b h]
      norm_num
    · push_neg at h
      have hPa : 0 < norm2 a := lt_of_le_of_ne (norm2_nonneg a) (Ne.symm h.1)
      have hPb : 0 < norm2 b := lt_of_le_of_ne (norm2_nonneg b) (Ne.symm h.2)
      have hP : 0 < norm2 a * norm2 b := mul_pos hPa hPb
      have hsq : (dot a b) ^ 2 ≤ (norm2 a * norm2 b) ^ 2 := by
        have := dot_sq_le a b
        have ha2 := norm2_mul_self a
        have hb2 := norm2_mul_self b
        nlinarith [this]
      have h1 : dot a b ≤ norm2 a * norm2 b := by nlinarith [hsq, hP]
      have h2 : -(norm2 a * norm2 b) ≤ dot a b := by nlinarith [hsq, hP]
      have hcos : cosineSim a b = dot a b / (norm2 a * norm2 b) := by
        unfold cosineSim
        rw [if_neg (by push_neg; exact h)]
      constructor
      · rw [hcos, le_div_iff₀ hP]
        linarith
      · rw [hcos, div_le_one hP]
        exact h1
  refine ⟨?_, hzero, ?_, habs⟩
  · intro a b _ ha hb
    unfold cosineSim
    rw [if_neg (by push_neg; exact ⟨ha, hb⟩)]
  · intro a ha
    have hd : 0 < dot a a := by
      have := Real.sqrt_pos.mp ha
      exact this
    unfold cosineSim
    rw [if_neg (by push_neg; exact ⟨ne_of_gt ha, ne_of_gt ha⟩)]
    rw [norm2_mul_self]
    exact div_self (ne_of_gt hd)

/-- Witness for C6 at concrete vectors `[1]` and `[]`. -/
theorem cosineSim_spec_witness :
    (([(1 : ℝ)]).length = ([(1 : ℝ)]).length ∧ norm2 [(1 : ℝ)] ≠ 0 ∧
      cosineSim [(1 : ℝ)] [(1 : ℝ)] = dot [(1 : ℝ)] [(1 : ℝ)] / (norm2 [(1 : ℝ)] * norm2 [(1 : ℝ)]))
    ∧ cosineSim ([] : List ℝ) [(1 : ℝ)] = 0
    ∧ (0 < norm2 [(1 : ℝ)] ∧ cosineSim [(1 : ℝ)] [(1 : ℝ)] = 1)
    ∧ (-1 ≤ cosineSim [(1 : ℝ)] [(1 : ℝ)] ∧ cosineSim [(1 : ℝ)] [(1 : ℝ)] ≤ 1) := by
  have hd : dot [(1 : ℝ)] [(1 : ℝ)] = 1 := by simp [dot]
  have hn : norm2 [(1 : ℝ)] = 1 := by rw [norm2, hd, Real.sqrt_one]
  have hz : norm2 ([] : List ℝ) = 0 := by
    rw [norm2, dot_nil_left, Real.sqrt_zero]
  have hone : norm2 [(1 : ℝ)] ≠ 0 := by rw [hn]; norm_num
  exact ⟨⟨rfl, hone, cosineSim_spec.1 [(1 : ℝ)] [(1 : ℝ)] rfl hone hone⟩,
         cosineSim_spec.2.1 ([] : List ℝ) [(1 : ℝ)] (Or.inl hz),
         ⟨by rw [hn]; norm_num, cosineSim_spec.2.2.1 [(1 : ℝ)] (by rw [hn]; norm_num)⟩,
         cosineSim_spec.2.2.2 [(1 : ℝ)] [(1 : ℝ)]⟩

/-! ## Document Store

Modelled from the spec (§3, §4.2): an append-only, insertion-ordered
sequence of embedded chunks with a single established vector dimension. -/

/-- A chunk: opaque identifier, text, ordinal position within its parent
document, count of siblings, and source metadata.  Immutable. -/
structure Chunk where
  id : ℕ
  text : String
  ordinal : ℕ
  ofTotal : ℕ
  srcMeta : List (String × String)
  deriving Repr, DecidableEq, Inhabited

/-- A chunk together with its embedding vector. -/
structure EmbeddedChunk where
  chunk : Chunk
  vector : List ℝ
  deriving Inhabited

/-- The document store: established dimension (none until the first
insert) and the insertion-ordered entries. -/
structure DocumentStore where
  dim : Option ℕ
  entries : List EmbeddedChunk

/-- A search result: a chunk and its similarity score. -/
structure SearchResult where
  chunk : Chunk
  score : ℝ

/-- Modelled from the spec: `add` appends an embedded chunk, establishing
the store dimension on the first insert and rejecting a vector whose
length disagrees with the established dimension. Returns the identifier
(insertion index). -/
def DocumentStore.add (st : DocumentStore) (c : Chunk) (v : List ℝ) :
    Except VError (DocumentStore × ℕ) :=
  match st.dim with
  | none => .ok (⟨some v.length, st.entries ++ [⟨c, v⟩]⟩, st.entries.length)
  | some d =>
    if v.length = d then .ok (⟨some d, st.entries ++ [⟨c, v⟩]⟩, st.entries.length)
    else .error .inputError

/-- Modelled from the spec: `all()` produces the entries in insertion
order. -/
def DocumentStore.all (st : DocumentStore) : List EmbeddedChunk :=
  st.entries

/-- The store visible after an `add` call: the new store on success, the
untouched original on failure. -/
def afterAdd (st : DocumentStore) (r : Except VError (DocumentStore × ℕ)) : DocumentStore :=
  match r with
  | .ok (st', _) => st'
  | .error _ => st

/-- Store well-formedness: every entry's vector length matches the
established dimension. -/
def DocumentStore.WF (st : DocumentStore) : Prop :=
  ∀ e ∈ st.entries, st.dim = some e.vector.length

/-- Claim C5: all vectors in one store share one dimension `D`; the first
`add` establishes `D` for the store's lifetime; a later `add` whose vector
length disagrees with `D` is rejected with an input error before mutating
the store, leaving the store unchanged. -/
theorem add_dim_invariant (st : DocumentStore) (c : Chunk) (v : List ℝ) :
    (st.dim = none → ∃ st' i, st.add c v = .ok (st', i) ∧ st'.dim = some v.length)
    ∧ (∀ d, st.dim = some d → v.length ≠ d →
        st.add c v = .error .inputError ∧ afterAdd st (st.add c v) = st)
    ∧ (st.WF → ∀ st' i, st.add c v = .ok (st', i) → st'.WF)
    ∧ (st.WF → ∀ e1 ∈ st.entries, ∀ e2 ∈ st.entries,
        e1.vector.length = e2.vector.length) := by
  refine ⟨?_, ?_, ?_, ?_⟩
  · intro hnone
    refine ⟨⟨some v.length, st.entries ++ [⟨c, v⟩]⟩, st.entries.length, ?_, rfl⟩
    unfold DocumentStore.add
    rw [hnone]
  · intro d hd hne
    have herr : st.add c v = .error .inputError := by
      unfold DocumentStore.add
      rw [hd]
      simp only [hne, if_false]
    exact ⟨herr, by rw [herr]; rfl⟩
  · intro hwf st' i hok
    unfold DocumentStore.add at hok
    cases hdim : st.dim with
    | none =>
      rw [hdim] at hok
      simp only [Except.ok.injEq, Prod.mk.injEq] at hok
      obtain ⟨rfl, rfl⟩ := hok
      intro e he
      simp only [List.mem_append, List.mem_singleton] at he
      rcases he with he | he
      · have := hwf e he
        rw [hdim] at this
        cases this
      · subst he
        rfl
    | some d =>
      rw [hdim] at hok
      dsimp only at hok
      by_cases hv : v.length = d
      · rw [if_pos hv] at hok
        simp only [Except.ok.injEq, Prod.mk.injEq] at hok
        obtain ⟨rfl, rfl⟩ := hok
        intro e he
        simp only [List.mem_append, List.mem_singleton] at he
        rcases he with he | he
        · have := hwf e he
          rw [hdim] at this
          exact this
        · subst he
          simp [hv]
      · rw [if_neg hv] at hok
        exact absurd hok (by simp)
  · intro hwf e1 he1 e2 he2
    have h1 := hwf e1 he1
    have h2 := hwf e2 he2
    rw [h1] at h2
    exact Option.some.inj h2

/-- A demonstration chunk used in concrete witnesses. -/
def demoChunk : Chunk := ⟨0, "demo", 1, 1, []⟩

/-- A store whose established dimension is 384, holding one entry. -/
def demoStore384 : DocumentStore :=
  ⟨some 384, [⟨demoChunk, List.replicate 384 (0 : ℝ)⟩]⟩

/-- Witness for C5: the dimension-mismatch scenario of the spec — a store
established at `D = 384` rejects a 300-length vector and is unchanged. -/
theorem add_dim_invariant_witness :
    demoStore384.dim = some 384 ∧
    (List.replicate 300 (0 : ℝ)).length ≠ 384 ∧
    (demoStore384.add demoChunk (List.replicate 300 (0 : ℝ)) = .error .inputError ∧
      afterAdd demoStore384 (demoStore384.add demoChunk (List.replicate 300 (0 : ℝ))) =
        demoStore384) :=
  ⟨rfl, by rw [List.length_replicate]; norm_num,
   (add_dim_invariant demoStore384 demoChunk (List.replicate 300 (0 : ℝ))).2.1 384 rfl
     (by rw [List.length_replicate]; norm_num)⟩

/-- The empty document store. -/
def emptyStore : DocumentStore := ⟨none, []⟩

/-- Claim C9: `all()` is side-effect-free and restartable — two calls with
no intervening `add` yield identical sequences — and it reflects insertion
order: a successful `add` appends exactly one entry at the end. -/
theorem all_idempotent (st : DocumentStore) :
    (st.all = st.all)
    ∧ (∀ c v st' i, st.add c v = .ok (st', i) → st'.all = st.all ++ [⟨c, v⟩]) := by
  refine ⟨rfl, ?_⟩
  intro c v st' i hok
  unfold DocumentStore.add at hok
  cases hdim : st.dim with
  | none =>
    rw [hdim] at hok
    simp only [Except.ok.injEq, Prod.mk.injEq] at hok
    obtain ⟨rfl, rfl⟩ := hok
    rfl
  | some d =>
    rw [hdim] at hok
    dsimp only at hok
    by_cases hv : v.length = d
    · rw [if_pos hv] at hok
      simp only [Except.ok.injEq, Prod.mk.injEq] at hok
      obtain ⟨rfl, rfl⟩ := hok
      rfl
    · rw [if_neg hv] at hok
      exact absurd hok (by simp)

/-- Witness for C9 at the empty store and a concrete `add`. -/
theorem all_idempotent_witness :
    (emptyStore.all = emptyStore.all)
    ∧ emptyStore.add demoChunk [(1 : ℝ)] =
        .ok (⟨some 1, [⟨demoChunk, [(1 : ℝ)]⟩]⟩, 0)
    ∧ (⟨some 1, [⟨demoChunk, [(1 : ℝ)]⟩]⟩ : DocumentStore).all =
        emptyStore.all ++ [⟨demoChunk, [(1 : ℝ)]⟩] :=
  ⟨(all_idempotent emptyStore).1, rfl,
   (all_idempotent emptyStore).2 demoChunk [(1 : ℝ)] ⟨some 1, [⟨demoChunk, [(1 : ℝ)]⟩]⟩ 0 rfl⟩

/-! ## Similarity Index

Modelled from the spec (§4.3) and the notebook's `cosine_similarity` +
`np.argmax` retrieval: brute-force cosine scoring of every stored vector,
ranked by descending score with ties broken by ascending insertion order. -/

/-- Ranking comparator on (insertion index, score) pairs: higher score
first, ties by lower insertion index first. -/
noncomputable def scoreLE (p r : ℕ × ℝ) : Bool :=
  decide (r.2 < p.2 ∨ (p.2 = r.2 ∧ p.1 ≤ r.1))

/-- Score every stored vector against the query and sort by the ranking
comparator; elements are (insertion index, cosine score). -/
noncomputable def rankEntries (st : DocumentStore) (q : List ℝ) : List (ℕ × ℝ) :=
  ((st.entries.map (fun e => cosineSim q e.vector)).enum).mergeSort scoreLE

/-- The chunk stored at insertion index `i`. -/
def chunkAt (st : DocumentStore) (i : ℕ) : Chunk :=
  (st.entries.getD i default).chunk

/-- Modelled from the spec: `search(query_vector, k)` — input errors for
non-positive `k` or a query dimension that disagrees with the store's
established dimension; otherwise the `k` best-scoring entries in rank
order. -/
noncomputable def SimilarityIndex.search (st : DocumentStore) (q : List ℝ) (k : ℤ) :
    Except VError (List SearchResult) :=
  if k ≤ 0 then .error .inputError
  else if st.dim.getD q.length = q.length then
    .ok (((rankEntries st q).take k.toNat).map (fun p => ⟨chunkAt st p.1, p.2⟩))
  else .error .inputError

theorem scoreLE_trans (a b c : ℕ × ℝ) (h1 : scoreLE a b) (h2 : scoreLE b c) :
    scoreLE a c := by
  simp only [scoreLE, decide_eq_true_eq] at h1 h2 ⊢
  rcases h1 with h1 | ⟨h1, h1i⟩ <;> rcases h2 with h2 | ⟨h2, h2i⟩
  · exact Or.inl (lt_trans h2 h1)
  · exact Or.inl (by rw [← h2]; exact h1)
  · exact Or.inl (by rw [h1]; exact h2)
  · exact Or.inr ⟨h1.trans h2, le_trans h1i h2i⟩

theorem scoreLE_total (a b : ℕ × ℝ) : scoreLE a b || scoreLE b a := by
  simp only [scoreLE, Bool.or_eq_true, decide_eq_true_eq]
  rcases lt_trichotomy a.2 b.2 with h | h | h
  · exact Or.inr (Or.inl h)
  · rcases Nat.le_total a.1 b.1 with hi | hi
    · exact Or.inl (Or.inr ⟨h, hi⟩)
    · exact Or.inr (Or.inr ⟨h.symm, hi⟩)
  · exact Or.inl (Or.inl h)

theorem rankEntries_length (st : DocumentStore) (q : List ℝ) :
    (rankEntries st q).length = st.entries.length := by
  unfold rankEntries
  rw [List.length_mergeSort, List.enum_length, List.length_map]

/-- The ranked list is strictly sorted: descending score, ties by strictly
ascending insertion index. -/
theorem rankEntries_sorted (st : DocumentStore) (q : List ℝ) :
    List.Pairwise (fun p r : ℕ × ℝ => r.2 < p.2 ∨ (p.2 = r.2 ∧ p.1 < r.1))
      (rankEntries st q) := by
  have hsorted : List.Pairwise (fun p r => scoreLE p r = true) (rankEntries st q) :=
    List.sorted_mergeSort scoreLE_trans scoreLE_total _
  have hperm : List.Perm (rankEntries st q)
      ((st.entries.map (fun e => cosineSim q e.vector)).enum) :=
    List.mergeSort_perm _ _
  have hnd : ((rankEntries st q).map Prod.fst).Nodup := by
    refine ((hperm.map Prod.fst).nodup_iff).mpr ?_
    rw [List.enum_map_fst]
    exact List.nodup_range _
  rw [List.Nodup, List.pairwise_map] at hnd
  refine (hsorted.and hnd).imp ?_
  intro a b hab
  obtain ⟨h1, h2⟩ := hab
  simp only [scoreLE, decide_eq_true_eq] at h1
  rcases h1 with h1 | ⟨h1, h1i⟩
  · exact Or.inl h1
  · exact Or.inr ⟨h1, lt_of_le_of_ne h1i h2⟩

/-- Every ranked pair records the cosine score of the stored vector at its
insertion index. -/
theorem rankEntries_mem (st : DocumentStore) (q : List ℝ) (p : ℕ × ℝ)
    (hp : p ∈ rankEntries st q) :
    ∃ e, st.entries[p.1]? = some e ∧ p.2 = cosineSim q e.vector := by
  obtain ⟨i, x⟩ := p
  have hmem : (i, x) ∈ (st.entries.map (fun e => cosineSim q e.vector)).enum := by
    have := (@List.mem_mergeSort _ scoreLE _ _).mp hp
    exact this
  obtain ⟨hi0, hx⟩ := List.mem_enum hmem
  have hget : (st.entries.map (fun e => cosineSim q e.vector))[i]? = some x := by
    rw [List.getElem?_eq_getElem hi0]
    exact congrArg some hx.symm
  rw [List.getElem?_map] at hget
  obtain ⟨e, he, hfe⟩ := Option.map_eq_some'.mp hget
  exact ⟨e, he, hfe.symm⟩

/-- Claim C1: for every store, query of the store's dimension and `k > 0`,
`search` returns `min(k, store size)` results, ranked by descending score
with ties broken by ascending insertion order, each scored against the
stored vector at its insertion index. -/
theorem search_spec (st : DocumentStore) (q : List ℝ) (k : ℤ)
    (hk : 0 < k) (hdim : st.dim.getD q.length = q.length) :
    ∃ ranked : List (ℕ × ℝ),
      SimilarityIndex.search st q k =
        .ok (ranked.map (fun p => SearchResult.mk (chunkAt st p.1) p.2))
      ∧ ranked = (rankEntries st q).take k.toNat
      ∧ (ranked.length : ℤ) = min k (st.entries.length : ℤ)
      ∧ List.Pairwise (fun p r : ℕ × ℝ => r.2 < p.2 ∨ (p.2 = r.2 ∧ p.1 < r.1)) ranked
      ∧ (∀ p ∈ ranked, ∃ e, st.entries[p.1]? = some e ∧ p.2 = cosineSim q e.vector) := by
  refine ⟨(rankEntries st q).take k.toNat, ?_, rfl, ?_, ?_, ?_⟩
  · unfold SimilarityIndex.search
    rw [if_neg (by omega), if_pos hdim]
  · rw [List.length_take, rankEntries_length]
    omega
  · exact List.Pairwise.sublist (List.take_sublist _ _) (rankEntries_sorted st q)
  · intro p hp
    exact rankEntries_mem st q p (List.mem_of_mem_take hp)

/-- A store with three 2-dimensional entries, as in the spec's end-to-end
scenario. -/
def demoStore3 : DocumentStore :=
  ⟨some 2, [⟨demoChunk, [(1 : ℝ), 0]⟩,
            ⟨demoChunk, [(0 : ℝ), 1]⟩,
            ⟨demoChunk, [(0.9 : ℝ), 0.1]⟩]⟩

/-- Witness for C1: query `[1, 0]` with `k = 2` against the three-entry
store. -/
theorem search_spec_witness :
    (0 : ℤ) < 2 ∧ demoStore3.dim.getD ([(1 : ℝ), 0]).length = ([(1 : ℝ), 0]).length ∧
    (∃ ranked : List (ℕ × ℝ),
      SimilarityIndex.search demoStore3 [(1 : ℝ), 0] 2 =
        .ok (ranked.map (fun p => SearchResult.mk (chunkAt demoStore3 p.1) p.2))
      ∧ ranked = (rankEntries demoStore3 [(1 : ℝ), 0]).take (2 : ℤ).toNat
      ∧ (ranked.length : ℤ) = min 2 (demoStore3.entries.length : ℤ)
      ∧ List.Pairwise (fun p r : ℕ × ℝ => r.2 < p.2 ∨ (p.2 = r.2 ∧ p.1 < r.1)) ranked
      ∧ (∀ p ∈ ranked, ∃ e, demoStore3.entries[p.1]? = some e ∧
          p.2 = cosineSim [(1 : ℝ), 0] e.vector)) :=
  ⟨by norm_num, rfl, search_spec demoStore3 [(1 : ℝ), 0] 2 (by norm_num) rfl⟩

/-! ## Retrieval Pipeline

Modelled from the spec (§4.4) and the notebook's corpus ingest loop:
chunk each document, prepend a rendering of its metadata, embed each
resulting string, add to the store; embedding failure fails the whole
call (all-or-nothing). -/

/-- A raw document: text plus string-to-string metadata. -/
structure RawDoc where
  text : String
  meta : List (String × String)

/-- Render metadata as `key: value` lines, for prepending to chunk text. -/
def renderMeta (m : List (String × String)) : String :=
  String.join (m.map (fun kv => kv.1 ++ ": " ++ kv.2 ++ "\n"))

/-- The chunks of one document: each window's text with the rendered
metadata prepended, carrying its ordinal and sibling count. -/
def mkChunks (d : RawDoc) (texts : List String) : List Chunk :=
  (List.range texts.length).map
    (fun j => ⟨j, renderMeta d.meta ++ texts.getD j "", j + 1, texts.length, d.meta⟩)

/-- Embed every chunk of a batch; any embedder failure fails the batch. -/
def embedAll (embed : String → Except VError (List ℝ)) :
    List Chunk → Except VError (List (Chunk × List ℝ))
  | [] => .ok []
  | c :: cs =>
    match embed c.text with
    | .error e => .error e
    | .ok v =>
      match embedAll embed cs with
      | .error e => .error e
      | .ok rest => .ok ((c, v) :: rest)

/-- Add a batch of embedded chunks to the store, in order. -/
def addAll (st : DocumentStore) : List (Chunk × List ℝ) → Except VError DocumentStore
  | [] => .ok st
  | (c, v) :: rest =>
    match st.add c v with
    | .error e => .error e
    | .ok (st', _) => addAll st' rest

/-- Modelled from the spec: `ingest` — for each document, chunk its text,
prepend metadata, embed each chunk, and add to the store; storage follows
document order then chunk ordinal. -/
def Pipeline.ingest (chunkFn : String → Except VError (List String))
    (embed : String → Except VError (List ℝ)) (st : DocumentStore) :
    List RawDoc → Except VError DocumentStore
  | [] => .ok st
  | d :: ds =>
    match chunkFn d.text with
    | .error e => .error e
    | .ok texts =>
      match embedAll embed (mkChunks d texts) with
      | .error e => .error e
      | .ok items =>
        match addAll st items with
        | .error e => .error e
        | .ok st' => Pipeline.ingest chunkFn embed st' ds

/-- Number of chunks stored by a successful ingest call (spec §4.4 return
value). -/
def Pipeline.ingestCount (chunkFn : String → Except VError (List String))
    (embed : String → Except VError (List ℝ)) (st : DocumentStore)
    (docs : List RawDoc) : Except VError ℕ :=
  (Pipeline.ingest chunkFn embed st docs).map
    (fun st' => st'.entries.length - st.entries.length)

/-- The store visible after an `ingest` call: unchanged when it failed. -/
def afterIngest (st : DocumentStore) (r : Except VError DocumentStore) : DocumentStore :=
  match r with
  | .ok st' => st'
  | .error _ => st

theorem embedAll_error (embed : String → Except VError (List ℝ)) (cs : List Chunk)
    (c : Chunk) (hc : c ∈ cs) (e : VError) (he : embed c.text = .error e) :
    ∃ e', embedAll embed cs = .error e' := by
  induction cs with
  | nil => cases hc
  | cons x xs ih =>
    rcases List.mem_cons.mp hc with rfl | hxs
    · exact ⟨e, by simp [embedAll, he]⟩
    · cases hx : embed x.text with
      | error e2 => exact ⟨e2, by simp [embedAll, hx]⟩
      | ok v =>
        obtain ⟨e', he'⟩ := ih hxs
        exact ⟨e', by simp [embedAll, hx, he']⟩

/-- Claim C2: if the Embedder fails for any chunk during an `ingest` call,
the whole call fails and the store retains no chunk from that call — the
visible store (and in particular its size) is unchanged. -/
theorem ingest_atomic (chunkFn : String → Except VError (List String))
    (embed : String → Except VError (List ℝ)) (st : DocumentStore)
    (docs : List RawDoc)
    (hfail : ∃ d ∈ docs, ∃ texts, chunkFn d.text = .ok texts ∧
      ∃ c ∈ mkChunks d texts, ∃ e, embed c.text = .error e) :
    ∃ e', Pipeline.ingest chunkFn embed st docs = .error e' ∧
      afterIngest st (Pipeline.ingest chunkFn embed st docs) = st ∧
      (afterIngest st (Pipeline.ingest chunkFn embed st docs)).entries.length =
        st.entries.length := by
  revert hfail
  induction docs generalizing st with
  | nil =>
    intro hfail
    obtain ⟨d, hd, _⟩ := hfail
    cases hd
  | cons d0 ds ih =>
    intro hfail
    obtain ⟨d, hd, texts, htexts, c, hc, e, he⟩ := hfail
    rcases List.mem_cons.mp hd with rfl | hds
    · obtain ⟨e', he'⟩ := embedAll_error embed (mkChunks d texts) c hc e he
      have hEq : Pipeline.ingest chunkFn embed st (d :: ds) = .error e' := by
        simp [Pipeline.ingest, htexts, he']
      exact ⟨e', hEq, by rw [hEq]; rfl, by rw [hEq]; rfl⟩
    · cases hchunk : chunkFn d0.text with
      | error e0 =>
        have hEq : Pipeline.ingest chunkFn embed st (d0 :: ds) = .error e0 := by
          simp [Pipeline.ingest, hchunk]
        exact ⟨e0, hEq, by rw [hEq]; rfl, by rw [hEq]; rfl⟩
      | ok texts0 =>
        cases hemb : embedAll embed (mkChunks d0 texts0) with
        | error e1 =>
          have hEq : Pipeline.ingest chunkFn embed st (d0 :: ds) = .error e1 := by
            simp [Pipeline.ingest, hchunk, hemb]
          exact ⟨e1, hEq, by rw [hEq]; rfl, by rw [hEq]; rfl⟩
        | ok items =>
          cases hadd : addAll st items with
          | error e2 =>
            have hEq : Pipeline.ingest chunkFn embed st (d0 :: ds) = .error e2 := by
              simp [Pipeline.ingest, hchunk, hemb, hadd]
            exact ⟨e2, hEq, by rw [hEq]; rfl, by rw [hEq]; rfl⟩
          | ok st2 =>
            obtain ⟨e', hE, _, _⟩ := ih st2 ⟨d, hds, texts, htexts, c, hc, e, he⟩
            have hEq : Pipeline.ingest chunkFn embed st (d0 :: ds) =
                Pipeline.ingest chunkFn embed st2 ds := by
              simp [Pipeline.ingest, hchunk, hemb, hadd]
            refine ⟨e', by rw [hEq, hE], by rw [hEq, hE]; rfl, by rw [hEq, hE]; rfl⟩

/-- A chunking function for concrete witnesses. -/
def demoChunkFn : String → Except VError (List String) := fun _ => .ok ["c"]

/-- An always-failing embedder for concrete witnesses. -/
def demoFailEmbed : String → Except VError (List ℝ) := fun _ => .error .collaboratorError

/-- Witness for C2: a one-document ingest whose embedder fails leaves the
empty store untouched. -/
theorem ingest_atomic_witness :
    (∃ d ∈ [RawDoc.mk "t" []], ∃ texts, demoChunkFn d.text = .ok texts ∧
      ∃ c ∈ mkChunks d texts, ∃ e, demoFailEmbed c.text = .error e) ∧
    (∃ e', Pipeline.ingest demoChunkFn demoFailEmbed emptyStore [RawDoc.mk "t" []] =
        .error e' ∧
      afterIngest emptyStore
          (Pipeline.ingest demoChunkFn demoFailEmbed emptyStore [RawDoc.mk "t" []]) =
        emptyStore ∧
      (afterIngest emptyStore
          (Pipeline.ingest demoChunkFn demoFailEmbed emptyStore
            [RawDoc.mk "t" []])).entries.length = emptyStore.entries.length) := by
  have hfail : ∃ d ∈ [RawDoc.mk "t" []], ∃ texts, demoChunkFn d.text = .ok texts ∧
      ∃ c ∈ mkChunks d texts, ∃ e, demoFailEmbed c.text = .error e := by
    refine ⟨RawDoc.mk "t" [], by simp, ["c"], rfl,
      ⟨0, renderMeta [] ++ "c", 1, 1, []⟩, ?_, .collaboratorError, rfl⟩
    simp [mkChunks]
  exact ⟨hfail, ingest_atomic demoChunkFn demoFailEmbed emptyStore [RawDoc.mk "t" []] hfail⟩

/-! ## The notebook's corpus ingest loop

Translated from the notebook cell that builds `documents`: rows of the
speeches dataframe whose `Transcript` is null are filtered out; each
chunk of a remaining row's transcript is stored with a header naming the
date, president, speech title, and the chunk's ordinal among the row's
total chunks. -/

/-- One dataframe row: possibly-null transcript plus the metadata columns
used by the header. -/
structure SpeechRow where
  transcript : Option String
  date : String
  president : String
  title : String

/-- The header string of notebook cell 25. -/
def rowHeader (r : SpeechRow) (chunkNum total : ℕ) : String :=
  "Date: " ++ r.date ++ "\nPresident: " ++ r.president ++ "\nSpeech Title: " ++
    r.title ++ " (chunk " ++ toString chunkNum ++ " of " ++ toString total ++ ")\n\n"

/-- Documents contributed by one row: none when the transcript is null,
otherwise one header-prefixed document per chunk (`chunk_num` running from
1 to the row's total). -/
def rowDocuments (splitText : String → List String) (r : SpeechRow) : List String :=
  match r.transcript with
  | none => []
  | some t =>
    (List.range (splitText t).length).map
      (fun j => rowHeader r (j + 1) (splitText t).length ++ (splitText t).getD j "")

/-- Translated from the notebook: the `documents` list accumulated over
the (transcript-filtered) dataframe rows, in row order. -/
def buildDocuments (splitText : String → List String) : List SpeechRow → List String
  | [] => []
  | r :: rs => rowDocuments splitText r ++ buildDocuments splitText rs

/-- Claim C10: rows with a null transcript contribute zero chunks; the
stored chunk count sums only the chunk counts of rows with non-null
transcripts; every stored chunk's text is the metadata header (naming its
ordinal among its row's total chunks) followed by the chunk. -/
theorem build_documents_spec (splitText : String → List String) (rows : List SpeechRow) :
    (∀ r ∈ rows, r.transcript = none → rowDocuments splitText r = [])
    ∧ (buildDocuments splitText rows).length =
        (rows.map (fun r => match r.transcript with
          | none => 0
          | some t => (splitText t).length)).sum
    ∧ (∀ r t, r.transcript = some t →
        ∀ j, j < (splitText t).length →
          (rowDocuments splitText r)[j]? =
            some (rowHeader r (j + 1) (splitText t).length ++ (splitText t).getD j "")) := by
  refine ⟨?_, ?_, ?_⟩
  · intro r _ hr
    simp [rowDocuments, hr]
  · induction rows with
    | nil => rfl
    | cons r rs ih =>
      simp only [buildDocuments, List.length_append, List.map_cons, List.sum_cons, ih]
      congr 1
      cases hr : r.transcript with
      | none => simp [rowDocuments, hr]
      | some t => simp [rowDocuments, hr]
  · intro r t hr j hj
    simp only [rowDocuments, hr]
    rw [List.getElem?_map, List.getElem?_range hj]
    rfl

/-- A splitting rule for concrete witnesses: every text yields the two
chunks `"a"`, `"b"`. -/
def demoSplit : String → List String := fun _ => ["a", "b"]

/-- A row with a null transcript. -/
def demoRowNone : SpeechRow := ⟨none, "d1", "p1", "t1"⟩

/-- A row with a non-null transcript. -/
def demoRowSome : SpeechRow := ⟨some "x", "d2", "p2", "t2"⟩

/-- Witness for C10 on a two-row corpus (one null transcript, one not). -/
theorem build_documents_spec_witness :
    (demoRowNone ∈ [demoRowNone, demoRowSome] ∧ demoRowNone.transcript = none ∧
      rowDocuments demoSplit demoRowNone = []) ∧
    (buildDocuments demoSplit [demoRowNone, demoRowSome]).length =
      (([demoRowNone, demoRowSome].map (fun r => match r.transcript with
        | none => 0
        | some t => (demoSplit t).length)).sum) ∧
    (demoRowSome.transcript = some "x" ∧ (0 : ℕ) < (demoSplit "x").length ∧
      (rowDocuments demoSplit demoRowSome)[0]? =
        some (rowHeader demoRowSome 1 (demoSplit "x").length ++ (demoSplit "x").getD 0 "")) := by
  have h := build_documents_spec demoSplit [demoRowNone, demoRowSome]
  exact ⟨⟨by simp, rfl, h.1 demoRowNone (by simp) rfl⟩, h.2.1,
         rfl, by norm_num [demoSplit], h.2.2 demoRowSome "x" rfl 0 (by norm_num [demoSplit])⟩
